import Mathlib

/-!
Verification of the parameter-sweep orchestration layer of the
supercurrent-nanowire data-generation notebook (generate-data.ipynb).

The notebook itself contains the callers: it builds parameter grids with
`funcs.named_product`, runs them with `funcs.run_simulation` (optionally split
into `N` chunk files), and merges the chunk files with `funcs.combine_dfs`.
The `funcs` module itself is not part of the shipped sources, so those
operations are modelled from the specification; the notebook-level code
(keyword-dict merging, mutation of the `syst_pars` default argument inside the
evaluation functions) is translated directly from the notebook cells.

Parameter values are kept polymorphic in a type `α`; a parameter combination
is an ordered association list `List (String × α)`, mirroring a Python dict
with known insertion order.
-/

/-- Modelled from the spec: `funcs.named_product` (missing from the shipped
sources; only its call sites are present). Cartesian product of named axes,
yielding named parameter combinations, with the leftmost axis outermost, so
the rightmost axis varies fastest — the order required by the notebook's
`np.reshape(df.E_min.values, (len(Deltas), len(mus)))` post-processing. -/
def named_product {α : Type} : List (String × List α) → List (List (String × α))
  | [] => [[]]
  | (n, vs) :: rest =>
      vs.flatMap (fun v => (named_product rest).map (fun combo => (n, v) :: combo))

/-- Modelled from the spec: the chunk splitting performed by
`funcs.run_simulation` when called with a chunk count `N`: the combination
sequence is partitioned into `N` contiguous, as-even-as-possible sub-ranges
(earlier chunks take the ceiling share, as `np.array_split` does). -/
def splitChunks {ρ : Type} : List ρ → Nat → List (List ρ)
  | _, 0 => []
  | rows, (n + 1) =>
      rows.take ((rows.length + n) / (n + 1)) ::
        splitChunks (rows.drop ((rows.length + n) / (n + 1))) n

/-- Chunk filename: the filename pattern with its placeholder replaced by the
decimal chunk index, as in `fname_i.format(i)` for a pattern such as
`tmp/1d_alpha_vs_B_x_*.hdf` (pattern = prefix, index, suffix). -/
def chunk_fname (pre post : String) (i : Nat) : String :=
  pre ++ toString i ++ post

/-- Modelled from the spec: the chunked output of `funcs.run_simulation` with
chunk count `N` — one file per chunk, named by `chunk_fname`, each holding the
evaluation results of its contiguous sub-range of combinations, in order. -/
def run_simulation_chunks {σ ρ : Type} (f : σ → ρ) (vals : List σ)
    (pre post : String) (N : Nat) : List (String × List ρ) :=
  (splitChunks (vals.map f) N).enum.map (fun p => (chunk_fname pre post p.1, p.2))

/-- Code-point lexicographic comparison of character lists, the order Python's
`sorted` uses on strings. -/
def charListLe : List Char → List Char → Bool
  | [], _ => true
  | _ :: _, [] => false
  | a :: as, b :: bs => if a = b then charListLe as bs else decide (a < b)

/-- Lexicographic comparison of filenames (Python string comparison). -/
def strLe (a b : String) : Bool :=
  charListLe a.data b.data

/-- Stable insertion of one element into a sorted list. -/
def insortBy {α : Type} (le : α → α → Bool) (x : α) : List α → List α
  | [] => [x]
  | y :: ys => if le y x then y :: insortBy le x ys else x :: y :: ys

/-- Stable sort by a boolean comparison (same output as Python's stable
`sorted` for a total comparison). -/
def sortBy {α : Type} (le : α → α → Bool) (l : List α) : List α :=
  l.foldr (insortBy le) []

/-- Modelled from the spec: `funcs.combine_dfs` (missing from the shipped
sources). It reads the files matched by a glob pattern — modelled here as the
list of (filename, table) pairs in arbitrary filesystem order — sorts them
with `sorted`, i.e. LEXICALLY by filename (the spec records that the source
sorts glob matches lexically, not by numeric chunk index), and concatenates
the tables in that order. -/
def combine_dfs {ρ : Type} (files : List (String × List ρ)) : List ρ :=
  (sortBy (fun a b => strLe a.1 b.1) files).flatMap Prod.snd

/-- Modelled from the spec: order restoration inside the runner. Completed
results arrive tagged with their submission index, in arbitrary completion
order; each is written back at its index (buffering/indexing). -/
def writeBack {ρ : Type} (n : Nat) (arrivals : List (Nat × ρ)) : List (Option ρ) :=
  arrivals.foldl (fun acc ir => acc.set ir.1 (some ir.2)) (List.replicate n none)

/-- Modelled from the spec: the persisted Result Table of one chunk — the
written-back slots read out in submission order. -/
def run_simulation_persist {ρ : Type} (n : Nat) (arrivals : List (Nat × ρ)) : List ρ :=
  (writeBack n arrivals).reduceOption

/-- Modelled from the spec: failure isolation in `funcs.run_simulation`. The
evaluation of one combination either returns a result or raises (an `Except`);
the runner catches per combination, records the outcome together with the
originating combination, and continues with the remaining combinations. -/
def run_simulation_records {σ ε ρ : Type} (f : σ → Except ε ρ) (vals : List σ) :
    List (σ × Except ε ρ) :=
  vals.foldl (fun table v => table ++ [(v, f v)]) []

/-- Durable state of the checkpoint file plus the in-flight temporary file. -/
structure FileState (ρ : Type) where
  durable : List ρ
  temp : Option (List ρ)
  deriving DecidableEq

/-- Modelled from the spec: first half of an atomic checkpoint flush — write
the new contents to a temporary file. -/
def stepWrite {ρ : Type} (fs : FileState ρ) (d : List ρ) : FileState ρ :=
  { fs with temp := some d }

/-- Modelled from the spec: second half of an atomic checkpoint flush — rename
the temporary file over the output file (atomic on the filesystem). -/
def stepRename {ρ : Type} (fs : FileState ρ) : FileState ρ :=
  match fs.temp with
  | some d => { durable := d, temp := none }
  | none => fs

/-- Micro-step trace of a sequence of checkpoint flushes: every filesystem
state the run passes through, one entry per atomic micro-step (so a crash can
be simulated at any index of this list). -/
def flushTrace {ρ : Type} (fs : FileState ρ) : List (List ρ) → List (FileState ρ)
  | [] => [fs]
  | d :: rest => fs :: stepWrite fs d :: flushTrace (stepRename (stepWrite fs d)) rest

/-- Membership of a key in a parameter dict (association list). -/
def keyMem {α : Type} (d : List (String × α)) (k : String) : Bool :=
  d.any (fun p => p.1 = k)

/-- Translated from the notebook source: `dict(**params, **val)`. Merging two
keyword-argument dicts keeps the entries of the first followed by the second
and raises `TypeError` (got multiple values for keyword argument) when the two
share a key — Python does not silently overwrite here. -/
def mergeKw {α : Type} (d₁ d₂ : List (String × α)) :
    Except String (List (String × α)) :=
  if d₂.any (fun p => keyMem d₁ p.1) then
    Except.error "TypeError: got multiple values for keyword argument"
  else
    Except.ok (d₁ ++ d₂)

/-- Translated from the notebook source: `d[k] = v` on a Python dict —
replace in place when the key exists, append otherwise. -/
def dinsert {α : Type} (d : List (String × α)) (k : String) (v : α) :
    List (String × α) :=
  if keyMem d k then d.map (fun p => if p.1 = k then (k, v) else p)
  else d ++ [(k, v)]

/-- Translated from the notebook source: the removal part of `d.pop(k)` —
drop the (single) entry with key `k`. -/
def derase {α : Type} (d : List (String × α)) (k : String) : List (String × α) :=
  d.eraseP (fun p => p.1 = k)

/-- Modelled from the spec: `funcs.parse_params` (missing from the shipped
sources) evaluates string-encoded lambda configuration values and leaves all
other entries unchanged; over the abstract scalar domain used here it is the
identity on the dict. -/
def parse_params {α : Type} (d : List (String × α)) : List (String × α) :=
  d

/-- Modelled from the spec: a run of `funcs.run_simulation` as seen through
its per-combination records, with the evaluation function of the notebook
cells, which merges the fixed parameters into each combination via
`dict(**params, **val)` and then applies the physics `g` to the merged dict.
The spec records that the source performs NO validation of fixed/axis name
overlap before dispatch: every combination is dispatched, and each record
carries the outcome of its own evaluation. -/
def run_simulation_dicts {α ρ : Type} (fixedParams : List (String × α))
    (g : List (String × α) → ρ) (vals : List (List (String × α))) :
    List (List (String × α) × Except String ρ) :=
  vals.map (fun val => (val, (mergeKw fixedParams val).map g))

/-- Translated from the notebook source (mean-free-path cell): the evaluation
function `func(val, syst_pars=syst_pars, params=params)`. It merges the fixed
`params` with the combination `val` (`dict(**params, **val)`), applies
`funcs.parse_params`, then executes `syst_pars['L'] = params.pop('L')` —
MUTATING the `syst_pars` dict that is shared across calls through the default
argument — and finally runs the physics on the updated system parameters and
the remaining parameters. Returns the result together with the `syst_pars`
state left behind. Errors (duplicate keyword, missing key for `pop`) occur
before the mutation, leaving `syst_pars` untouched. -/
def cell11_func {α ρ : Type} (physics : List (String × α) → List (String × α) → ρ)
    (params : List (String × α)) (val : List (String × α))
    (syst_pars : List (String × α)) : Except String (ρ × List (String × α)) :=
  match mergeKw params val with
  | Except.error e => Except.error e
  | Except.ok merged =>
    let merged := parse_params merged
    match List.lookup "L" merged with
    | none => Except.error "KeyError: L"
    | some L =>
        let sp := dinsert syst_pars "L" L
        let p := derase merged "L"
        Except.ok (physics sp p, sp)

/-- The `syst_pars` state after one call of the evaluation function: the
mutated dict on success, the unchanged dict when the call raised. -/
def stateAfter {α ρ : Type} (r : Except String (ρ × List (String × α)))
    (sp : List (String × α)) : List (String × α) :=
  match r with
  | Except.ok pr => pr.2
  | Except.error _ => sp

/-- Translated from the notebook source: `np.reshape(flat, (rows, cols))` in
C (row-major) order, as applied to the flat result column. -/
def reshape2 {ρ : Type} (flat : List ρ) (rows cols : Nat) : List (List ρ) :=
  (List.range rows).map (fun r => (flat.drop (r * cols)).take cols)

/-! ### Helper lemmas -/

theorem named_product_length {α : Type} (axes : List (String × List α)) :
    (named_product axes).length = (axes.map (fun ax => ax.2.length)).prod := by
  induction axes with
  | nil => simp [named_product]
  | cons ax rest ih =>
    obtain ⟨n, vs⟩ := ax
    simp only [named_product, List.length_flatMap, Function.comp_def, List.length_map,
      List.map_const', List.sum_replicate, smul_eq_mul, ih, List.map_cons, List.prod_cons]

/-! ### C2 — Sweep Builder output length -/

/-- C2: for every mapping from axis names to finite sequences of candidate
values, `named_product` returns a sequence of parameter combinations whose
length equals the product of the lengths of all axes; in particular, if any
axis has zero candidate values the returned sequence is empty. -/
theorem named_product_length_spec {α : Type} (axes : List (String × List α)) :
    (named_product axes).length = (axes.map (fun ax => ax.2.length)).prod ∧
    ((∃ ax ∈ axes, ax.2 = []) → named_product axes = []) := by
  refine ⟨named_product_length axes, ?_⟩
  rintro ⟨ax, hmem, hnil⟩
  have hzero : (axes.map (fun ax => ax.2.length)).prod = 0 := by
    apply List.prod_eq_zero
    exact List.mem_map.mpr ⟨ax, hmem, by simp [hnil]⟩
  have := named_product_length axes
  rw [hzero] at this
  exact List.length_eq_zero.mp this

/-- Witness for C2 at a concrete input: a two-axis grid whose second axis has
no candidate values yields the empty sweep, via the theorem itself. -/
theorem named_product_length_spec_witness :
    named_product [("a", [1, 2]), ("b", ([] : List Int))] = [] :=
  (named_product_length_spec [("a", [1, 2]), ("b", ([] : List Int))]).2
    ⟨("b", []), by simp, rfl⟩

/-! ### C6 — combinations are unique and well-formed -/

theorem named_product_nodup {α : Type} (axes : List (String × List α))
    (h : ∀ ax ∈ axes, ax.2.Nodup) : (named_product axes).Nodup := by
  induction axes with
  | nil => simp [named_product]
  | cons ax rest ih =>
    obtain ⟨n, vs⟩ := ax
    simp only [named_product]
    rw [List.nodup_flatMap]
    constructor
    · intro v _
      apply List.Nodup.map
      · intro c c' e
        simpa using e
      · exact ih (fun a ha => h a (List.mem_cons_of_mem _ ha))
    · have hvs : vs.Nodup := h (n, vs) (List.mem_cons_self _ _)
      refine hvs.imp ?_
      intro v v' hne
      intro a hav hav'
      simp only [List.mem_map] at hav hav'
      obtain ⟨c, _, rfl⟩ := hav
      obtain ⟨c', _, he⟩ := hav'
      simp only [List.cons.injEq, Prod.mk.injEq] at he
      exact hne he.1.2.symm

theorem named_product_forall₂ {α : Type} (axes : List (String × List α)) :
    ∀ combo ∈ named_product axes,
      List.Forall₂ (fun (c : String × α) (ax : String × List α) =>
        c.1 = ax.1 ∧ c.2 ∈ ax.2) combo axes := by
  induction axes with
  | nil =>
    intro combo hc
    simp only [named_product, List.mem_singleton] at hc
    simp [hc]
  | cons ax rest ih =>
    obtain ⟨n, vs⟩ := ax
    intro combo hc
    simp only [named_product, List.mem_flatMap, List.mem_map] at hc
    obtain ⟨v, hv, c, hcmem, rfl⟩ := hc
    exact List.Forall₂.cons ⟨rfl, hv⟩ (ih c hcmem)

/-- C6: for every mapping from axis names to sequences of distinct candidate
values, no two parameter combinations produced by the Sweep Builder are
identical, and every produced combination assigns exactly one value, drawn
from the corresponding axis's candidate sequence, to each axis name and to
nothing else (pointwise correspondence with the axis list). -/
theorem named_product_distinct {α : Type} (axes : List (String × List α))
    (h : ∀ ax ∈ axes, ax.2.Nodup) :
    (named_product axes).Nodup ∧
    ∀ combo ∈ named_product axes,
      List.Forall₂ (fun (c : String × α) (ax : String × List α) =>
        c.1 = ax.1 ∧ c.2 ∈ ax.2) combo axes :=
  ⟨named_product_nodup axes h, named_product_forall₂ axes⟩

/-- Witness for C6 at a concrete input: the two-axis grid over distinct
candidates has pairwise distinct combinations. -/
theorem named_product_distinct_witness :
    (named_product [("a", [1, 2]), ("b", ([3, 4] : List Int))]).Nodup :=
  (named_product_distinct [("a", [1, 2]), ("b", ([3, 4] : List Int))] (by decide)).1

/-! ### C10 — row-major combination order and reshape compatibility -/

theorem flatMap_getElem_div_mod {α β : Type} (f : α → List β) (m : Nat)
    (hm : ∀ a, (f a).length = m) :
    ∀ (l : List α) (i : Nat), i < l.length * m →
      (l.flatMap f)[i]? = (l[i / m]?).bind (fun a => (f a)[i % m]?) := by
  intro l
  induction l with
  | nil => intro i hi; simp at hi
  | cons a l ih =>
    intro i hi
    have hm0 : 0 < m := by
      rcases Nat.eq_zero_or_pos m with h0 | h0
      · rw [h0, Nat.mul_zero] at hi; omega
      · exact h0
    rw [List.flatMap_cons]
    by_cases hcase : i < m
    · rw [List.getElem?_append_left (by rw [hm a]; exact hcase)]
      rw [Nat.div_eq_of_lt hcase, Nat.mod_eq_of_lt hcase]
      simp
    · push_neg at hcase
      rw [List.getElem?_append_right (by rw [hm a]; exact hcase)]
      rw [hm a]
      have hi' : i - m < l.length * m := by
        have : (l.length + 1) * m = l.length * m + m := by ring
        rw [List.length_cons, this] at hi
        omega
      rw [ih (i - m) hi']
      rw [Nat.div_eq_sub_div hm0 hcase, Nat.mod_eq_sub_mod hcase]
      simp

theorem named_product_two {α : Type} (na nb : String) (Ds Ms : List α) :
    named_product [(na, Ds), (nb, Ms)] =
      Ds.flatMap (fun d => Ms.map (fun m => [(na, d), (nb, m)])) := by
  have h1 : ∀ (g : α → List (String × α)) (l : List α),
      (l.flatMap fun x => [g x]) = l.map g := by
    intro g l
    induction l with
    | nil => rfl
    | cons a l ih => simp only [List.flatMap_cons, ih, List.singleton_append, List.map_cons]
  simp only [named_product, List.map_cons, List.map_nil, List.map_map]
  congr 1
  funext d
  rw [h1 (fun m => [(nb, m)]) Ms, List.map_map]
  rfl

theorem named_product_two_getElem {α : Type} (na nb : String) (Ds Ms : List α)
    (i : Nat) (hi : i < Ds.length * Ms.length) :
    (named_product [(na, Ds), (nb, Ms)])[i]? =
      (Ds[i / Ms.length]?).bind
        (fun d => (Ms[i % Ms.length]?).map (fun m => [(na, d), (nb, m)])) := by
  rw [named_product_two]
  rw [flatMap_getElem_div_mod (fun d => Ms.map (fun m => [(na, d), (nb, m)]))
    Ms.length (fun d => by simp) Ds i hi]
  cases h : Ds[i / Ms.length]? with
  | none => simp
  | some d => simp

theorem reshape2_getElem {ρ : Type} (flat : List ρ) (rows cols : Nat)
    (r c : Nat) (hr : r < rows) (hc : c < cols) :
    ((reshape2 flat rows cols)[r]?).bind (fun row => row[c]?) = flat[r * cols + c]? := by
  unfold reshape2
  rw [List.getElem?_map, List.getElem?_range hr]
  simp only [Option.map_some', Option.some_bind, List.getElem?_take, hc, if_pos,
    List.getElem?_drop]

/-- C10: the Sweep Builder's combination order is row-major with the
rightmost-named axis varying fastest: for `named_product(Delta=Deltas, mu=mus)`
the i-th combination assigns `Delta = Deltas[i / len(mus)]` and
`mu = mus[i % len(mus)]`, and consequently reshaping the flat result column to
shape `(len(Deltas), len(mus))` recovers the grid with one row per `Delta`
value and one column per `mu` value. -/
theorem named_product_row_major {α ρ : Type} (Ds Ms : List α) :
    (∀ i d m, i < Ds.length * Ms.length →
      Ds[i / Ms.length]? = some d → Ms[i % Ms.length]? = some m →
      (named_product [("Delta", Ds), ("mu", Ms)])[i]? =
        some [("Delta", d), ("mu", m)]) ∧
    (∀ (g : List (String × α) → ρ) (r c : Nat) (d m : α),
      Ds[r]? = some d → Ms[c]? = some m →
      ((reshape2 ((named_product [("Delta", Ds), ("mu", Ms)]).map g)
          Ds.length Ms.length)[r]?).bind (fun row : List ρ => row[c]?) =
        some (g [("Delta", d), ("mu", m)])) := by
  constructor
  · intro i d m hi hd hm'
    rw [named_product_two_getElem "Delta" "mu" Ds Ms i hi, hd, hm']
    rfl
  · intro g r c d m hd hm'
    obtain ⟨hr, -⟩ := List.getElem?_eq_some_iff.mp hd
    obtain ⟨hc, -⟩ := List.getElem?_eq_some_iff.mp hm'
    rw [reshape2_getElem _ _ _ r c hr hc, List.getElem?_map]
    have hi : r * Ms.length + c < Ds.length * Ms.length := by
      have h1 : (r + 1) * Ms.length ≤ Ds.length * Ms.length :=
        Nat.mul_le_mul_right _ hr
      have h2 : (r + 1) * Ms.length = r * Ms.length + Ms.length := by ring
      omega
    rw [named_product_two_getElem "Delta" "mu" Ds Ms (r * Ms.length + c) hi]
    have hM : 0 < Ms.length := Nat.lt_of_le_of_lt (Nat.zero_le _) hc
    have hdiv : (r * Ms.length + c) / Ms.length = r := by
      rw [Nat.mul_comm r, Nat.mul_add_div hM, Nat.div_eq_of_lt hc, Nat.add_zero]
    have hmod : (r * Ms.length + c) % Ms.length = c := by
      rw [Nat.mul_comm r, Nat.mul_add_mod, Nat.mod_eq_of_lt hc]
    rw [hdiv, hmod, hd, hm']
    rfl

/-- Witness for C10 at a concrete input: for the grid with Delta values
100, 200 and mu values 1, 2, 3, combination 4 carries Delta 200 (= 4 div 3)
and mu 2 (= 4 mod 3), and grid cell (1, 1) of the reshaped result column holds
the evaluation of exactly that combination. -/
theorem named_product_row_major_witness :
    (named_product [("Delta", ([100, 200] : List Int)), ("mu", [1, 2, 3])])[4]? =
      some [("Delta", 200), ("mu", 2)] ∧
    ((reshape2 ((named_product [("Delta", ([100, 200] : List Int)),
        ("mu", [1, 2, 3])]).map List.length) 2 3)[1]?).bind
      (fun row => row[1]?) = some 2 :=
  ⟨(@named_product_row_major Int Nat [100, 200] [1, 2, 3]).1 4 200 2 (by decide) rfl rfl,
   (@named_product_row_major Int Nat [100, 200] [1, 2, 3]).2 List.length 1 1 200 2 rfl rfl⟩

/-! ### C1 — split then merge reproduces the full row set -/

theorem splitChunks_flatten {ρ : Type} :
    ∀ (N : Nat) (rows : List ρ), 1 ≤ N → (splitChunks rows N).flatten = rows := by
  intro N
  induction N with
  | zero => intro rows h; omega
  | succ n ih =>
    intro rows _
    cases n with
    | zero =>
      simp [splitChunks]
    | succ n' =>
      have heq : splitChunks rows (n' + 1 + 1) =
          rows.take ((rows.length + (n' + 1)) / (n' + 1 + 1)) ::
            splitChunks (rows.drop ((rows.length + (n' + 1)) / (n' + 1 + 1))) (n' + 1) := rfl
      rw [heq, List.flatten_cons, ih _ (by omega), List.take_append_drop]

theorem insortBy_perm {α : Type} (le : α → α → Bool) (x : α) (l : List α) :
    List.Perm (insortBy le x l) (x :: l) := by
  induction l with
  | nil => exact List.Perm.refl _
  | cons y ys ih =>
    simp only [insortBy]
    split
    · exact (ih.cons y).trans (List.Perm.swap x y ys)
    · exact List.Perm.refl _

theorem sortBy_perm {α : Type} (le : α → α → Bool) (l : List α) :
    List.Perm (sortBy le l) l := by
  induction l with
  | nil => exact List.Perm.refl _
  | cons y ys ih => exact (insortBy_perm le y (sortBy le ys)).trans (ih.cons y)

theorem run_simulation_chunks_rows {σ ρ : Type} (f : σ → ρ) (vals : List σ)
    (pre post : String) (N : Nat) (hN : 1 ≤ N) :
    (run_simulation_chunks f vals pre post N).flatMap Prod.snd = vals.map f := by
  unfold run_simulation_chunks
  rw [List.flatMap_map]
  show (((splitChunks (vals.map f) N).enum).map Prod.snd).flatten = vals.map f
  rw [List.enum_map_snd, splitChunks_flatten N _ hN]

/-- C1: for any sweep of parameter combinations and any chunk count N >= 1,
splitting the sweep into N chunk files via the runner and then merging the
resulting files with the merge operation (whose glob may hand back the chunk
files in any filesystem order) reproduces exactly the full row set of the
sweep: no row is duplicated and no row is dropped, provided all chunks
completed successfully. -/
theorem split_merge_roundtrip {σ ρ : Type} (f : σ → ρ) (vals : List σ)
    (pre post : String) (N : Nat) (hN : 1 ≤ N)
    (files : List (String × List ρ))
    (hfiles : List.Perm files (run_simulation_chunks f vals pre post N)) :
    List.Perm (combine_dfs files) (vals.map f) := by
  unfold combine_dfs
  have h1 : List.Perm (sortBy (fun a b => strLe a.1 b.1) files) files :=
    sortBy_perm _ _
  have h2 := (h1.trans hfiles).flatMap_right (Prod.snd)
  rw [run_simulation_chunks_rows f vals pre post N hN] at h2
  exact h2

/-- Witness for C1 at the spec's concrete scenario (integer stand-ins 0, 5
for the field values 0.0, 0.5): the 6-combination sweep over mu and B_x, run
with N = 2, produces two chunk files of 3 rows each; merging them — even when
the glob returns the files in reversed order — is a permutation of the full
6-row table. -/
theorem split_merge_roundtrip_witness :
    List.Perm
      (combine_dfs ((run_simulation_chunks (fun c => c)
          (named_product [("mu", ([10, 20, 30] : List Int)), ("B_x", [0, 5])])
          "tmp/sweep_" ".hdf" 2).reverse))
      ((named_product [("mu", ([10, 20, 30] : List Int)), ("B_x", [0, 5])]).map
        (fun c => c)) :=
  split_merge_roundtrip (fun c => c)
    (named_product [("mu", ([10, 20, 30] : List Int)), ("B_x", [0, 5])])
    "tmp/sweep_" ".hdf" 2 (by decide) _ (List.reverse_perm _)

/-! ### C5 — merge sorts chunk files lexically, misordering index 10 -/

/-- C5 (code behaviour at the failing input): with 11 chunk files, the merge
operation sorts the filenames lexically, which places chunk 10 between chunks
1 and 2; the merged rows are NOT in numeric chunk-index order. Here each chunk
i holds the single row i, so the merged table directly exhibits the file
order used. -/
theorem combine_dfs_lexical_misorder :
    combine_dfs (run_simulation_chunks (fun i => i) (List.range 11)
        "tmp/x_" ".hdf" 11) =
      [0, 1, 10, 2, 3, 4, 5, 6, 7, 8, 9] ∧
    [0, 1, 10, 2, 3, 4, 5, 6, 7, 8, 9] ≠ List.range 11 := by
  constructor
  · rfl
  · decide

/-! ### C3 — submission order is preserved regardless of completion order -/

theorem foldl_set_length {ρ : Type} :
    ∀ (arrivals : List (Nat × ρ)) (acc : List (Option ρ)),
      (arrivals.foldl (fun acc ir => acc.set ir.1 (some ir.2)) acc).length =
        acc.length := by
  intro arrivals
  induction arrivals with
  | nil => intro acc; rfl
  | cons p rest ih =>
    intro acc
    rw [List.foldl_cons, ih, List.length_set]

theorem foldl_set_getElem {ρ : Type} (l : List ρ) :
    ∀ (arrivals : List (Nat × ρ)) (acc : List (Option ρ)),
      acc.length = l.length →
      (∀ p ∈ arrivals, l[p.1]? = some p.2) →
      ∀ i, i < l.length →
      ((∃ r, (i, r) ∈ arrivals) ∨ acc[i]? = some l[i]?) →
      (arrivals.foldl (fun acc ir => acc.set ir.1 (some ir.2)) acc)[i]? =
        some l[i]? := by
  intro arrivals
  induction arrivals with
  | nil =>
    intro acc _ _ i _ hdisj
    rcases hdisj with ⟨r, hr⟩ | hacc
    · exact absurd hr (List.not_mem_nil _)
    · exact hacc
  | cons p rest ih =>
    intro acc hlen hcorrect i hi hdisj
    obtain ⟨j, r⟩ := p
    have hj : l[j]? = some r := hcorrect (j, r) (List.mem_cons_self _ _)
    have hjlt : j < l.length := by
      obtain ⟨h, -⟩ := List.getElem?_eq_some_iff.mp hj
      exact h
    rw [List.foldl_cons]
    apply ih (acc.set j (some r)) (by rw [List.length_set]; exact hlen)
      (fun q hq => hcorrect q (List.mem_cons_of_mem _ hq)) i hi
    by_cases hij : i = j
    · right
      subst hij
      rw [List.getElem?_set, if_pos rfl, hlen, if_pos hjlt, hj]
    · rcases hdisj with ⟨r', hr'⟩ | hacc
      · rcases List.mem_cons.mp hr' with heq | hmem
        · exact absurd (congrArg Prod.fst heq) hij
        · exact Or.inl ⟨r', hmem⟩
      · right
        rw [List.getElem?_set, if_neg (Ne.symm hij)]
        exact hacc

theorem reduceOption_map_some {ρ : Type} (l : List ρ) :
    (l.map some).reduceOption = l := by
  induction l with
  | nil => rfl
  | cons a l ih => simp only [List.map_cons, List.reduceOption_cons_of_some, ih]

theorem writeBack_enum_eq {ρ : Type} (l : List ρ) (arrivals : List (Nat × ρ))
    (h : List.Perm arrivals l.enum) :
    writeBack l.length arrivals = l.map some := by
  have hcorr : ∀ p ∈ arrivals, l[p.1]? = some p.2 := by
    intro p hp
    have hpe : p ∈ l.enum := h.subset hp
    exact List.mem_enum_iff_getElem?.mp hpe
  apply List.ext_getElem?
  intro i
  by_cases hi : i < l.length
  · have hmem : (i, l[i]) ∈ arrivals := by
      apply h.mem_iff.mpr
      apply List.mem_enum_iff_getElem?.mpr
      rw [List.getElem?_eq_getElem hi]
    have hres := foldl_set_getElem l arrivals (List.replicate l.length none)
      (by simp) hcorr i hi (Or.inl ⟨l[i], hmem⟩)
    unfold writeBack
    rw [hres, List.getElem?_map, List.getElem?_eq_getElem hi]
    rfl
  · push_neg at hi
    have h1 : (writeBack l.length arrivals).length = l.length := by
      unfold writeBack
      rw [foldl_set_length, List.length_replicate]
    rw [List.getElem?_eq_none (by omega), List.getElem?_eq_none (by simpa)]

/-- C3: for every chunk, the rows of the persisted Result Table appear in
submission order — whenever the completed results arrive as an arbitrary
permutation of the submitted (index, result) pairs, the persisted table
equals the evaluation of the combinations in their submission order, which is
exactly the order the downstream reshape of the flat result column relies
on. -/
theorem run_simulation_order {σ ρ : Type} (f : σ → ρ) (vals : List σ)
    (arrivals : List (Nat × ρ))
    (h : List.Perm arrivals ((vals.map f).enum)) :
    run_simulation_persist vals.length arrivals = vals.map f := by
  unfold run_simulation_persist
  have h1 : vals.length = (vals.map f).length := (List.length_map _ _).symm
  rw [h1, writeBack_enum_eq (vals.map f) arrivals h, reduceOption_map_some]

/-- Witness for C3 at a concrete input: results completing in the order
2, 0, 1 are still persisted as the table for submissions 0, 1, 2. -/
theorem run_simulation_order_witness :
    run_simulation_persist ([10, 20, 30] : List Int).length
        [(2, 31), (0, 11), (1, 21)] =
      ([10, 20, 30] : List Int).map (fun v => v + 1) :=
  run_simulation_order (fun v => v + 1) [10, 20, 30] [(2, 31), (0, 11), (1, 21)]
    (by decide)

/-! ### C4 — per-combination failures are recorded, sweep continues -/

theorem run_simulation_records_eq_map {σ ε ρ : Type} (f : σ → Except ε ρ) :
    ∀ (vals : List σ) (init : List (σ × Except ε ρ)),
      vals.foldl (fun table v => table ++ [(v, f v)]) init =
        init ++ vals.map (fun v => (v, f v)) := by
  intro vals
  induction vals with
  | nil => intro init; simp
  | cons v rest ih =>
    intro init
    rw [List.foldl_cons, ih, List.map_cons]
    simp

/-- C4: if the evaluation function raises for some subset of parameter
combinations, the runner does not abort the sweep: the Result Table has
exactly one record per combination, a result row for every combination whose
evaluation succeeded, and a failure record (the combination plus an error
indicator) for every combination whose evaluation raised — so no successful
result is lost because of another combination's failure. -/
theorem run_simulation_failure_isolation {σ ε ρ : Type} (f : σ → Except ε ρ)
    (vals : List σ) :
    (run_simulation_records f vals).length = vals.length ∧
    (∀ v r, v ∈ vals → f v = Except.ok r →
      (v, Except.ok r) ∈ run_simulation_records f vals) ∧
    (∀ v e, v ∈ vals → f v = Except.error e →
      (v, Except.error e) ∈ run_simulation_records f vals) := by
  have hmap : run_simulation_records f vals = vals.map (fun v => (v, f v)) := by
    unfold run_simulation_records
    rw [run_simulation_records_eq_map, List.nil_append]
  refine ⟨by rw [hmap, List.length_map], ?_, ?_⟩
  · intro v r hv hok
    rw [hmap]
    exact List.mem_map.mpr ⟨v, hv, by rw [hok]⟩
  · intro v e hv herr
    rw [hmap]
    exact List.mem_map.mpr ⟨v, hv, by rw [herr]⟩

/-- Witness for C4 at a concrete input: with an evaluation that raises only
for combination 2, the table still holds the success rows of 1 and 3 and a
failure record for 2. -/
theorem run_simulation_failure_isolation_witness :
    ((1 : Int), Except.ok (10 : Int)) ∈
      run_simulation_records
        (fun v : Int => if v = 2 then Except.error "boom" else Except.ok (v * 10))
        [1, 2, 3] ∧
    ((2 : Int), (Except.error "boom" : Except String Int)) ∈
      run_simulation_records
        (fun v : Int => if v = 2 then Except.error "boom" else Except.ok (v * 10))
        [1, 2, 3] :=
  ⟨(run_simulation_failure_isolation
      (fun v : Int => if v = 2 then Except.error "boom" else Except.ok (v * 10))
      [1, 2, 3]).2.1 1 10 (by decide) rfl,
   (run_simulation_failure_isolation
      (fun v : Int => if v = 2 then Except.error "boom" else Except.ok (v * 10))
      [1, 2, 3]).2.2 2 "boom" (by decide) rfl⟩

/-! ### C8 — checkpoint flushes are atomic -/

/-- C8: every checkpoint flush is atomic. At any micro-step of the run —
i.e. after a simulated crash or operator interruption at any point between or
during flushes — the output file is readable and its contents equal the state
as of the last completed flush (the initial contents when no flush completed),
never a half-written intermediate. -/
theorem checkpoint_flush_atomic {ρ : Type} :
    ∀ (flushes : List (List ρ)) (init : List ρ) (j : Nat) (s : FileState ρ),
      (flushTrace ⟨init, none⟩ flushes)[j]? = some s →
      s.durable = (init :: flushes).getD (j / 2) [] := by
  intro flushes
  induction flushes with
  | nil =>
    intro init j s hs
    simp only [flushTrace] at hs
    cases j with
    | zero =>
      simp only [List.getElem?_cons_zero, Option.some.injEq] at hs
      rw [← hs]
      rfl
    | succ n =>
      rw [List.getElem?_cons_succ] at hs
      simp at hs
  | cons d rest ih =>
    intro init j s hs
    simp only [flushTrace] at hs
    match j with
    | 0 =>
      simp only [List.getElem?_cons_zero, Option.some.injEq] at hs
      rw [← hs]
      rfl
    | 1 =>
      rw [List.getElem?_cons_succ, List.getElem?_cons_zero] at hs
      cases hs
      rfl
    | (n + 2) =>
      rw [List.getElem?_cons_succ, List.getElem?_cons_succ] at hs
      have hstep : stepRename (stepWrite (⟨init, none⟩ : FileState ρ) d) =
          (⟨d, none⟩ : FileState ρ) := rfl
      rw [hstep] at hs
      have := ih d n s hs
      have hdiv : (n + 2) / 2 = n / 2 + 1 := by omega
      rw [hdiv]
      simpa using this

/-- Witness for C8 at a concrete input: crashing three micro-steps into a run
with initial contents [1] and flushes [1, 2] then [1, 2, 3] — i.e. during
the second flush, after its temporary write but before its rename — leaves
the durable file equal to [1, 2], the state of the last completed flush. -/
theorem checkpoint_flush_atomic_witness :
    (FileState.durable (⟨[1, 2], some [1, 2, 3]⟩ : FileState Int)) =
      ([[1], [1, 2], [1, 2, 3]] : List (List Int)).getD (3 / 2) [] :=
  checkpoint_flush_atomic [[1, 2], [1, 2, 3]] [1] 3 ⟨[1, 2], some [1, 2, 3]⟩ rfl

/-! ### C7 — fixed/axis name collisions are NOT detected eagerly -/

theorem forall₂_mem_right {α β : Type} {R : α → β → Prop} :
    ∀ {l₁ : List α} {l₂ : List β}, List.Forall₂ R l₁ l₂ →
      ∀ b ∈ l₂, ∃ a ∈ l₁, R a b := by
  intro l₁ l₂ h
  induction h with
  | nil =>
    intro b hb
    exact absurd hb (List.not_mem_nil _)
  | @cons a b l₁' l₂' hR hrest ih =>
    intro b' hb'
    rcases List.mem_cons.mp hb' with rfl | hb''
    · exact ⟨a, List.mem_cons_self _ _, hR⟩
    · obtain ⟨a', ha', hab⟩ := ih b' hb''
      exact ⟨a', List.mem_cons_of_mem _ ha', hab⟩

/-- C7 counterexample: with the fixed parameter name `alpha` also an axis
name, the run does NOT fail eagerly before dispatch with a configuration
error; both combinations are dispatched and evaluated, and each evaluation
raises Python's duplicate-keyword `TypeError`, recorded per combination. -/
theorem run_simulation_collision_counterexample :
    keyMem [("alpha", (5 : Int))] "alpha" = true ∧
    run_simulation_dicts [("alpha", (5 : Int))] (fun d => d.length)
        (named_product [("alpha", [1]), ("mu", [2, 3])]) =
      [([("alpha", 1), ("mu", 2)],
        Except.error "TypeError: got multiple values for keyword argument"),
       ([("alpha", 1), ("mu", 3)],
        Except.error "TypeError: got multiple values for keyword argument")] :=
  ⟨rfl, rfl⟩

/-- C7 (amended): if a name occurs both in the Fixed Parameters and as an
axis name, the runner does not detect the collision before dispatch: every
combination is still dispatched (one record per combination), and the
collision surfaces only inside each evaluation, where the keyword-dict merge
`dict(**params, **val)` raises a duplicate-keyword `TypeError` that is
recorded as that combination's failure. -/
theorem run_simulation_collision_at_evaluation {α ρ : Type}
    (fixedParams : List (String × α)) (g : List (String × α) → ρ)
    (axes : List (String × List α)) (name : String) (axvals : List α)
    (hfix : keyMem fixedParams name = true)
    (hax : (name, axvals) ∈ axes) :
    (run_simulation_dicts fixedParams g (named_product axes)).length =
      (named_product axes).length ∧
    ∀ entry ∈ run_simulation_dicts fixedParams g (named_product axes),
      entry.2 =
        Except.error "TypeError: got multiple values for keyword argument" := by
  constructor
  · unfold run_simulation_dicts
    rw [List.length_map]
  · intro entry hentry
    unfold run_simulation_dicts at hentry
    obtain ⟨val, hval, rfl⟩ := List.mem_map.mp hentry
    have hf₂ := named_product_forall₂ axes val hval
    obtain ⟨c, hc, hcR⟩ := forall₂_mem_right hf₂ (name, axvals) hax
    have hmerge : mergeKw fixedParams val =
        Except.error "TypeError: got multiple values for keyword argument" := by
      unfold mergeKw
      rw [if_pos]
      refine List.any_eq_true.mpr ⟨c, hc, ?_⟩
      rw [hcR.1]
      exact hfix
    show (mergeKw fixedParams val).map g = _
    rw [hmerge]
    rfl

/-- Witness for C7's amended theorem at a concrete input: the colliding
two-combination sweep still produces one record per combination. -/
theorem run_simulation_collision_at_evaluation_witness :
    (run_simulation_dicts [("alpha", (5 : Int))] (fun d => d.length)
        (named_product [("alpha", [1]), ("mu", [2, 3])])).length =
      (named_product [("alpha", ([1] : List Int)), ("mu", [2, 3])]).length :=
  (run_simulation_collision_at_evaluation [("alpha", (5 : Int))]
    (fun d => d.length) [("alpha", [1]), ("mu", [2, 3])] "alpha" [1]
    rfl (by decide)).1

/-! ### C9 — the evaluation function mutates shared system parameters -/

/-- C9 counterexample: one call of the mean-free-path cell's evaluation
function on the combination `L = 80` leaves the shared `syst_pars` dict (the
default-argument dict reused across calls) changed from `[("a", 8)]` to
`[("a", 8), ("L", 80)]` — the system parameters are not read-only to the
evaluation function. -/
theorem cell11_func_mutates_counterexample :
    cell11_func (fun _ _ => (0 : Int)) [("alpha", (20 : Int))] [("L", 80)]
        [("a", 8)] = Except.ok (0, [("a", 8), ("L", 80)]) ∧
    ([("a", 8), ("L", 80)] : List (String × Int)) ≠ [("a", 8)] := by
  constructor
  · rfl
  · decide

theorem dinsert_dinsert_same {α : Type} (d : List (String × α)) (k : String)
    (a b : α) : dinsert (dinsert d k a) k b = dinsert d k b := by
  by_cases h : keyMem d k = true
  · have hkm : keyMem (d.map (fun p => if p.1 = k then (k, a) else p)) k = true := by
      unfold keyMem at h ⊢
      rw [List.any_map]
      rw [List.any_eq_true] at h ⊢
      obtain ⟨p, hp, hpk⟩ := h
      refine ⟨p, hp, ?_⟩
      simp only [Function.comp_apply]
      rw [decide_eq_true_eq] at hpk ⊢
      rw [if_pos hpk]
    unfold dinsert
    rw [if_pos h, if_pos hkm, if_pos h, List.map_map]
    apply List.map_congr_left
    intro p _
    by_cases hpk : p.1 = k
    · simp [hpk]
    · simp [hpk]
  · have hall : ∀ p ∈ d, ¬ p.1 = k := by
      intro p hp hpk
      apply h
      unfold keyMem
      rw [List.any_eq_true]
      exact ⟨p, hp, by rw [decide_eq_true_eq]; exact hpk⟩
    have hkm : keyMem (d ++ [(k, a)]) k = true := by
      unfold keyMem
      rw [List.any_eq_true]
      exact ⟨(k, a), List.mem_append_right _ (List.mem_singleton_self _),
        by rw [decide_eq_true_eq]⟩
    unfold dinsert
    rw [if_neg h, if_pos hkm, if_neg h, List.map_append]
    have hmap : d.map (fun p => if p.1 = k then (k, b) else p) = d := by
      conv_rhs => rw [← List.map_id d]
      apply List.map_congr_left
      intro p hp
      simp only [id_eq]
      rw [if_neg (hall p hp)]
    rw [hmap]
    simp

theorem cell11_func_dinsert_L {α ρ : Type}
    (physics : List (String × α) → List (String × α) → ρ)
    (params v sp : List (String × α)) (L2 : α) :
    cell11_func physics params v (dinsert sp "L" L2) =
      cell11_func physics params v sp := by
  cases hm : mergeKw params v with
  | error e => simp only [cell11_func, hm]
  | ok merged =>
    cases hl : List.lookup "L" merged with
    | none => simp only [cell11_func, hm, parse_params, hl]
    | some L => simp only [cell11_func, hm, parse_params, hl, dinsert_dinsert_same]

/-- C9 (amended): each evaluation of the mean-free-path cell's function is
deterministic and order-independent in its RESULT — running any other
combination first (which mutates only the `L` entry of the shared `syst_pars`
dict, an entry the next call overwrites before use) leaves the outcome of a
call identical to running it on the pristine state — but the function is not
side-effect-free: it writes the popped `L` value into the shared system
parameters, as the counterexample shows. -/
theorem cell11_func_no_interference {α ρ : Type}
    (physics : List (String × α) → List (String × α) → ρ)
    (params v v' sp : List (String × α)) :
    cell11_func physics params v
        (stateAfter (cell11_func physics params v' sp) sp) =
      cell11_func physics params v sp := by
  cases h : cell11_func physics params v' sp with
  | error e =>
    rfl
  | ok pr =>
    obtain ⟨r, sp'⟩ := pr
    have hsp' : ∃ L2, sp' = dinsert sp "L" L2 := by
      cases hm : mergeKw params v' with
      | error e =>
        simp only [cell11_func, hm] at h
        simp at h
      | ok merged =>
        cases hl : List.lookup "L" merged with
        | none =>
          simp only [cell11_func, hm, parse_params, hl] at h
          simp at h
        | some L2 =>
          simp only [cell11_func, hm, parse_params, hl, Except.ok.injEq,
            Prod.mk.injEq] at h
          exact ⟨L2, h.2.symm⟩
    obtain ⟨L2, rfl⟩ := hsp'
    show cell11_func physics params v (dinsert sp "L" L2) =
      cell11_func physics params v sp
    exact cell11_func_dinsert_L physics params v sp L2
